import Mathlib

/-!
Shallow embedding of the go-redis repository (RESP codec, typed key-value
store with TTL metadata, and the command handlers of `server.go`).

Bytes are modelled as `Nat` (ASCII codes), byte strings as `List Nat`,
Go `int64` arithmetic as `Int` with explicit two's-complement wrapping
(`wrap64`), and wall-clock instants/durations as `Int` nanoseconds
(`time.Time` / `time.Duration`).  Go's `bufio.Reader` becomes a `List Nat`
that parsers consume from the front, returning the unread remainder.
-/

namespace GoRedis

/-- Protocol value (`src/parser/parser.go`: `SimpleString`, `Error`,
`Integer`, `BulkString`, `Array`).  Go represents the null bulk both as a
nil `BulkString` (accepted by `Serialize`, which emits `$-1\x0d\x0a` for it)
and as the untyped nil `Value` (produced by `handleBulkString` on length
`-1` and by `handleCommand` when `handleInteger` fails, since its error is
discarded); both denote the spec's distinguished null bulk and are merged
into the single constructor `null`.  `int` carries the payload of
`Integer`, which in Go is an `int64`. -/
inductive RValue where
  | simple (s : List Nat)
  | err (s : List Nat)
  | int (n : Int)
  | bulk (b : List Nat)
  | null
  | array (vs : List RValue)
deriving Repr

/-- CR LF, the protocol line terminator. -/
def crlf : List Nat := [13, 10]

/-- Digit-extraction loop for decimal formatting; the first argument is
fuel bounding the number of divisions (any fuel at least the value of the
number itself is enough). -/
def natAsciiAux : Nat → Nat → List Nat → List Nat
  | 0, _, acc => acc
  | _ + 1, 0, acc => acc
  | fuel + 1, n, acc => natAsciiAux fuel (n / 10) ((n % 10 + 48) :: acc)

/-- ASCII decimal digits of a natural number, most significant first
(`strconv.FormatInt` on nonnegative input). -/
def natAscii (n : Nat) : List Nat :=
  if n = 0 then [48] else natAsciiAux n n []

/-- ASCII decimal rendering of a signed integer (`strconv.FormatInt`,
`strconv.Itoa`). -/
def intAscii (n : Int) : List Nat :=
  if n < 0 then 45 :: natAscii n.natAbs else natAscii n.natAbs

/-- ASCII decimal digit test. -/
def isDigitB (b : Nat) : Bool := 48 ≤ b && b ≤ 57

/-- Numeric value of a most-significant-first ASCII digit string. -/
def valOfDigits (l : List Nat) : Nat :=
  l.foldl (fun a d => a * 10 + (d - 48)) 0

/-- `strconv.ParseInt(s, 10, 64)` (also `strconv.Atoi` on a 64-bit
platform): an optional single leading sign, then at least one decimal
digit, rejecting values outside the signed 64-bit range. -/
def parseInt (l : List Nat) : Option Int :=
  match l with
  | [] => none
  | c :: rest =>
    let neg := c = 45
    let ds := if c = 45 || c = 43 then rest else c :: rest
    if ds.isEmpty then none
    else if ds.all isDigitB then
      let v : Int := if neg then -(valOfDigits ds : Int) else (valOfDigits ds : Int)
      if -(2 ^ 63) ≤ v ∧ v < 2 ^ 63 then some v else none
    else none

/-- Go `int64` two's-complement wrapping of an unbounded integer. -/
def wrap64 (n : Int) : Int := (n + 2 ^ 63) % 2 ^ 64 - 2 ^ 63

mutual

/-- `Serialize` (`parser.go`).  The Go function returns an error only for
a `Value` outside the five protocol types, which the model's `RValue`
excludes, so the model is total.  A nil `BulkString` serializes as
`$-1\x0d\x0a`; an `Array` is serialized element-wise after a `*<count>`
header. -/
def serialize : RValue → List Nat
  | .simple s => 43 :: (s ++ crlf)
  | .err s => 45 :: (s ++ crlf)
  | .int n => 58 :: (intAscii n ++ crlf)
  | .null => [36, 45, 49, 13, 10]
  | .bulk b => 36 :: (intAscii b.length ++ crlf ++ b ++ crlf)
  | .array vs => 42 :: (intAscii vs.length ++ crlf ++ serializeList vs)
termination_by structural v => v

/-- Concatenated serialization of an `Array`'s elements (the loop of
`Serialize`'s `Array` case). -/
def serializeList : List RValue → List Nat
  | [] => []
  | v :: vs => serialize v ++ serializeList vs
termination_by structural l => l

end

/-- `bufio.Reader.ReadString('\n')`: the consumed bytes up to and
including the first LF, the remainder, and whether the delimiter was found
(`err == nil`).  When no LF is present the whole input is consumed and the
error (ignored by most call sites) is signalled by `false`. -/
def readString : List Nat → List Nat × List Nat × Bool
  | [] => ([], [], false)
  | b :: bs =>
    if b = 10 then ([10], bs, true)
    else
      let r := readString bs
      (b :: r.1, r.2.1, r.2.2)

/-- `bufio.Reader.ReadByte` with its error ignored, as in `handleArray`:
on an empty reader the zero byte is produced. -/
def readByte : List Nat → Nat × List Nat
  | [] => (0, [])
  | b :: bs => (b, bs)

/-- `strings.TrimSuffix(line, "\x0d\x0a")`. -/
def trimCRLF (l : List Nat) : List Nat :=
  if l.reverse.take 2 = [10, 13] then (l.reverse.drop 2).reverse else l

/-- ASCII whitespace (`unicode.IsSpace` restricted to the single-byte
range, which is all the length lines and inline commands of the claims
exercise). -/
def isWS (b : Nat) : Bool := b = 32 || (9 ≤ b && b ≤ 13)

/-- `strings.TrimSpace` over ASCII. -/
def trimSpace (l : List Nat) : List Nat :=
  ((l.dropWhile isWS).reverse.dropWhile isWS).reverse

/-- `io.ReadFull` into a buffer of `n` bytes: fails (unexpected EOF) when
fewer than `n` bytes remain. -/
def readFull (n : Nat) (l : List Nat) : Option (List Nat × List Nat) :=
  if l.length < n then none else some (l.take n, l.drop n)

/-- `strings.Fields`: split on runs of whitespace; the first argument
accumulates the current token in reverse. -/
def fieldsAux (cur : List Nat) : List Nat → List (List Nat)
  | [] => if cur.isEmpty then [] else [cur.reverse]
  | b :: bs =>
    if isWS b then
      if cur.isEmpty then fieldsAux [] bs else cur.reverse :: fieldsAux [] bs
    else fieldsAux (b :: cur) bs

/-- `strings.Fields`. -/
def fields (l : List Nat) : List (List Nat) := fieldsAux [] l

/-- Outcome of running a parsing function: a value plus the unread input,
an error return, or a Go runtime panic (negative-size `make`,
out-of-range slice). -/
inductive PResult (α : Type) where
  | ok (v : α) (rest : List Nat)
  | fail
  | panic
deriving Repr

/-- `handleInteger`: read a line, trim CR LF, strip one leading `+`, and
`ParseInt` it.  Its caller `handleCommand` discards the error, so a bad
integer yields the nil `Value` (constructor `null`) instead. -/
def handleIntegerM (input : List Nat) : PResult RValue :=
  let r := readString input
  let trimmed := trimCRLF r.1
  let trimmed2 :=
    match trimmed with
    | c :: rest => if c = 43 then rest else c :: rest
    | [] => []
  match parseInt trimmed2 with
  | some n => .ok (.int n) r.2.1
  | none => .ok .null r.2.1

/-- `handleBulkString`: read the length line, `TrimSpace` + `Atoi` it;
`-1` is the null bulk; any other negative length panics (for `-2` the
slice `buf[:length]` is out of range, below that `make([]byte, length+2)`
has negative size); otherwise read `length+2` bytes and keep the first
`length`. -/
def handleBulkStringM (input : List Nat) : PResult RValue :=
  let r := readString input
  match parseInt (trimSpace r.1) with
  | none => .fail
  | some len =>
    if len = -1 then .ok .null r.2.1
    else if len < -1 then .panic
    else
      match readFull (len.toNat + 2) r.2.1 with
      | none => .fail
      | some (buf, rest) => .ok (.bulk (buf.take len.toNat)) rest

/-- `handleInline`: prepend the already-consumed first byte, trim CR LF,
split into whitespace-separated tokens, and (as the source comments,
"return only the command name for now") emit an `Array` holding just the
first token as a `SimpleString`.  A read error (no LF before EOF) or an
all-whitespace line is an error return. -/
def handleInlineM (firstByte : Nat) (input : List Nat) : PResult RValue :=
  let r := readString input
  if !r.2.2 then .fail
  else
    match fields (trimCRLF (firstByte :: r.1)) with
    | [] => .fail
    | t :: _ => .ok (.array [.simple t]) r.2.1

/-- The element loop of `handleArray`: `ReadByte` (error ignored) then
`handleCommand`, `n` times, propagating error returns and panics.  The
element parser is passed in so that the recursion is on the count. -/
def parseElems (pv : Nat → List Nat → PResult RValue) :
    Nat → List Nat → PResult (List RValue)
  | 0, input => .ok [] input
  | n + 1, input =>
    let rb := readByte input
    match pv rb.1 rb.2 with
    | .ok v rest =>
      match parseElems pv n rest with
      | .ok vs rest2 => .ok (v :: vs) rest2
      | .fail => .fail
      | .panic => .panic
    | .fail => .fail
    | .panic => .panic

/-- `handleCommand` (with `handleArray` inlined): dispatch on the type
byte.  For `*`, the length line is read and `make([]Value, length)`
panics on a negative length before the loop runs.  The fuel argument
bounds the `Array` nesting depth; `deserialize` passes the input length,
which the recursion (each nested value sits behind at least one consumed
byte) can never exhaust. -/
def parseValue : Nat → Nat → List Nat → PResult RValue
  | 0, _, _ => .fail
  | fuel + 1, p, input =>
    if p = 43 then
      let r := readString input
      .ok (.simple (trimCRLF r.1)) r.2.1
    else if p = 45 then
      let r := readString input
      .ok (.err (trimCRLF r.1)) r.2.1
    else if p = 58 then handleIntegerM input
    else if p = 36 then handleBulkStringM input
    else if p = 42 then
      let r := readString input
      match parseInt (trimSpace r.1) with
      | none => .fail
      | some len =>
        if len < 0 then .panic
        else
          match parseElems (fun b inp => parseValue fuel b inp) len.toNat r.2.1 with
          | .ok vs rest => .ok (.array vs) rest
          | .fail => .fail
          | .panic => .panic
    else handleInlineM p input

/-- `Deserialize`: read the first byte (EOF is an error) and dispatch. -/
def deserialize (input : List Nat) : PResult RValue :=
  match input with
  | [] => .fail
  | b :: rest => parseValue (b :: rest).length b rest

/-! ## The store (`src/server/storage.go`, latest revision, and the
handlers of `src/server/server.go`) -/

/-- A stored value (`map[string]interface{}`): `[]byte`, `int64`, or the
list type used by the list commands. -/
inductive StoredValue where
  | bytes (b : List Nat)
  | counter (n : Int)
  | list (l : List (List Nat))
deriving DecidableEq, Repr

/-- One record of the `TTLMap` (`ExpirationTime`): absolute deadline and
the duration that was supplied when it was installed, both in
nanoseconds. -/
structure ExpirationTime where
  expiryTime : Int
  durationSet : Int
deriving DecidableEq, Repr

/-- Go map lookup on an association list. -/
def alookup {α : Type} (k : String) : List (String × α) → Option α
  | [] => none
  | (k', v) :: tl => if k' = k then some v else alookup k tl

/-- Go map assignment `m[k] = v`: update in place or append. -/
def aset {α : Type} (k : String) (v : α) : List (String × α) → List (String × α)
  | [] => [(k, v)]
  | (k', v') :: tl => if k' = k then (k, v) :: tl else (k', v') :: aset k v tl

/-- Go map `delete(m, k)`. -/
def adel {α : Type} (k : String) : List (String × α) → List (String × α)
  | [] => []
  | e :: tl => if e.1 = k then adel k tl else e :: adel k tl

/-- The `Store`: the keyspace `data` and the expiration table
`volatileKeyMap.data`. -/
structure Store where
  data : List (String × StoredValue)
  ttl : List (String × ExpirationTime)
deriving DecidableEq, Repr

/-- The empty store (`newStore`). -/
def store0 : Store := ⟨[], []⟩

/-- `WrapValue`: `[]byte` passes through, `int64` is rendered in decimal,
anything else (a list) yields `(nil, false)`. -/
def WrapValue : StoredValue → Option (List Nat)
  | .bytes b => some b
  | .counter n => some (intAscii n)
  | .list _ => none

/-- `Store.isVolatile`. -/
def isVolatile (st : Store) (k : String) : Bool :=
  (alookup k st.ttl).isSome

/-- `Store.Get` at wall-clock instant `now`: a key that is volatile and
past its deadline is reported absent, its expiration record deleted by
`TTLMap.IsValid` (`!time.Now().Before(expiry)`, i.e. `expiry ≤ now`) and
the key itself by the deferred `Del`.  Returns the `WrapValue` result and
the updated store. -/
def storeGet (st : Store) (k : String) (now : Int) : Option (List Nat) × Store :=
  match alookup k st.data with
  | none => (none, st)
  | some val =>
    match alookup k st.ttl with
    | none => (WrapValue val, st)
    | some r =>
      if r.expiryTime ≤ now then (none, ⟨adel k st.data, adel k st.ttl⟩)
      else (WrapValue val, st)

/-- `Store.Set`: unconditionally store a `[]byte`; the expiration table is
not touched. -/
def storeSet (st : Store) (k : String) (v : List Nat) : Store :=
  ⟨aset k (.bytes v) st.data, st.ttl⟩

/-- `Store.Del`: delete each key present in the keyspace, counting the
deletions.  The expiration table is not consulted or modified. -/
def storeDel (st : Store) (keys : List String) : Nat × Store :=
  keys.foldl
    (fun acc k =>
      if (alookup k acc.2.data).isSome then (acc.1 + 1, ⟨adel k acc.2.data, acc.2.ttl⟩)
      else acc)
    (0, st)

/-- Outcome of `Store.IncrBy`. -/
inductive IncrResult where
  | ok (n : Int)
  | errNotInt
  | errWrongType
deriving DecidableEq, Repr

/-- `Store.IncrBy`: an absent key is created holding `delta`; `[]byte` is
parsed with `ParseInt` (failure is the not-an-integer error); `int64` and
the parsed case add with Go's wrapping `int64` addition (`v += delta`,
no overflow check); a list is the wrong-type error.  Expiration metadata
is never consulted. -/
def storeIncrBy (st : Store) (k : String) (delta : Int) : IncrResult × Store :=
  match alookup k st.data with
  | none => (.ok delta, ⟨aset k (.counter delta) st.data, st.ttl⟩)
  | some (.bytes b) =>
    match parseInt b with
    | none => (.errNotInt, st)
    | some n =>
      let r := wrap64 (n + delta)
      (.ok r, ⟨aset k (.counter r) st.data, st.ttl⟩)
  | some (.counter n) =>
    let r := wrap64 (n + delta)
    (.ok r, ⟨aset k (.counter r) st.data, st.ttl⟩)
  | some (.list _) => (.errWrongType, st)

/-- Replies produced by the command handlers that the claims examine
(`parser.Integer` and `parser.Error`; error text as a `String`). -/
inductive Reply where
  | int (n : Int)
  | err (s : String)
deriving DecidableEq, Repr

/-- Which of the two commands sharing `handleExpire` is running. -/
inductive ExpCmd where
  | expire
  | expireAt
deriving DecidableEq, Repr

/-- Nanoseconds per second (`time.Second`). -/
def nsPerSec : Int := 1000000000

/-- The prospective expiration record built by `getSetterAndDuration` /
`withTTL` / `withUnixExpiry`.  For `EXPIRE` the duration is
`time.Duration(t) * time.Second`, a wrapping `int64` multiplication; for
`EXPIREAT` the deadline is `time.Unix(t, 0)` and the duration its
distance from now. -/
def expSetter (cmd : ExpCmd) (t : Int) (now : Int) : ExpirationTime :=
  match cmd with
  | .expire =>
    let d := wrap64 (t * nsPerSec)
    ⟨now + d, d⟩
  | .expireAt =>
    let c := t * nsPerSec
    ⟨c, c - now⟩

/-- `handleExpireOption`: `NX`/`XX` gate on volatility, `GT`/`LT`
additionally compare the prospective duration with the stored
`durationSet` (`TTLMap.GetSetDuration`, whose body is `GetDuration` in
`storage.go`); any other option string is an error reply. -/
def handleExpireOptionM (st : Store) (k : String) (o : String)
    (pr : ExpirationTime) : Reply × Store :=
  if o = "NX" then
    match alookup k st.ttl with
    | some _ => (.int 0, st)
    | none => (.int 1, ⟨st.data, aset k pr st.ttl⟩)
  else if o = "XX" then
    match alookup k st.ttl with
    | some _ => (.int 1, ⟨st.data, aset k pr st.ttl⟩)
    | none => (.int 0, st)
  else if o = "GT" then
    match alookup k st.ttl with
    | some old =>
      if old.durationSet < pr.durationSet then (.int 1, ⟨st.data, aset k pr st.ttl⟩)
      else (.int 0, st)
    | none => (.int 0, st)
  else if o = "LT" then
    match alookup k st.ttl with
    | some old =>
      if pr.durationSet < old.durationSet then (.int 1, ⟨st.data, aset k pr st.ttl⟩)
      else (.int 0, st)
    | none => (.int 0, st)
  else (.err ("ERR Unsupported option " ++ o), st)

/-- `handleExpire` (`server.go`) after argument decoding: `EXPIRE` with a
strictly negative `t` (and `EXPIREAT` with a deadline already in the
past) deletes any expiration record, touches nothing else, and replies
`1` unconditionally; otherwise the prospective record is installed,
directly or through the option gate.  The keyspace is never consulted or
modified. -/
def handleExpireM (cmd : ExpCmd) (st : Store) (k : String) (t : Int)
    (opt : Option String) (now : Int) : Reply × Store :=
  let earlyDel : Bool :=
    match cmd with
    | .expire => t < 0
    | .expireAt => t * nsPerSec < now
  if earlyDel then (.int 1, ⟨st.data, adel k st.ttl⟩)
  else
    let pr := expSetter cmd t now
    match opt with
    | none => (.int 1, ⟨st.data, aset k pr st.ttl⟩)
    | some o => handleExpireOptionM st k o pr

/-- Modelled from the spec: `TTLMap.GetTTL`, called by `handleTTL`, is
absent from the sources (only its caller is present).  Per spec §4.2
(`Ttl`), it reports the remaining time to the deadline and fails when the
key has no expiration record or the record is already expired. -/
def getTTL (st : Store) (k : String) (now : Int) : Option Int :=
  match alookup k st.ttl with
  | none => none
  | some r => if r.expiryTime ≤ now then none else some (r.expiryTime - now)

/-- `handleTTL` (`server.go`): query `GetTTL` first; on success reply its
value integer-divided by `time.Second` (Go division truncates, and the
value here is positive); on failure fall back to `Store.Get` — absent
gives `-2`, present gives `-1` — keeping whatever lazy deletion `Get`
performed. -/
def handleTTLM (st : Store) (k : String) (now : Int) : Reply × Store :=
  match getTTL st k now with
  | some t => (.int (t / nsPerSec), st)
  | none =>
    let g := storeGet st k now
    match g.1 with
    | none => (.int (-2), g.2)
    | some _ => (.int (-1), g.2)

/-- Result of `Store.GetWithTypeCheck`. -/
inductive GetTCResult where
  | found (b : List Nat)
  | absent
  | wrongType
deriving DecidableEq, Repr

/-- Modelled from the spec: `Store.GetWithTypeCheck`, called by
`handleGet` and exercised by `TestGetOnListKey`, is absent from the
sources.  Per spec §4.2, a volatile key past its deadline is treated as
absent (with the same lazy deletion as `Get`), a `List` fails
`WRONGTYPE` without modifying the keyspace, and `Bytes`/`Counter` are
returned through `WrapValue`'s formatting. -/
def getWithTypeCheckM (st : Store) (k : String) (now : Int) :
    GetTCResult × Store :=
  match alookup k st.data with
  | none => (.absent, st)
  | some val =>
    let expired : Bool :=
      match alookup k st.ttl with
      | some r => r.expiryTime ≤ now
      | none => false
    if expired then (.absent, ⟨adel k st.data, adel k st.ttl⟩)
    else
      match val with
      | .list _ => (.wrongType, st)
      | .bytes b => (.found b, st)
      | .counter n => (.found (intAscii n), st)

/-- Spec §4.2's read/modify step 2 shared by the modelled list
operations: a volatile key past its deadline is dropped from both maps
before the operation proceeds. -/
def purgeExpired (st : Store) (k : String) (now : Int) : Store :=
  match alookup k st.ttl with
  | none => st
  | some r => if r.expiryTime ≤ now then ⟨adel k st.data, adel k st.ttl⟩ else st

/-- Result of the modelled push operations and `LLen`. -/
inductive ListResult where
  | ok (n : Int)
  | wrongType
deriving DecidableEq, Repr

/-- Result of the modelled pop operations. -/
inductive PopResult where
  | vals (l : List (List Nat))
  | null
  | wrongType
deriving DecidableEq, Repr

/-- Modelled from the spec: `Store.LPush` is absent from the sources
(only its callers and tests are).  Per spec §4.2, an absent key is
created, `Bytes`/`Counter` fail `WRONGTYPE`, and the elements are
prepended so that the head becomes `eₙ, …, e₁, <previous head>, …`;
the new length is returned. -/
def storeLPush (st : Store) (k : String) (elems : List (List Nat))
    (now : Int) : ListResult × Store :=
  let s := purgeExpired st k now
  match alookup k s.data with
  | none =>
    let nl := elems.reverse
    (.ok nl.length, ⟨aset k (.list nl) s.data, s.ttl⟩)
  | some (.list l) =>
    let nl := elems.reverse ++ l
    (.ok nl.length, ⟨aset k (.list nl) s.data, s.ttl⟩)
  | some _ => (.wrongType, s)

/-- Modelled from the spec: `Store.RPush`, symmetric to `LPush`,
appending in argument order. -/
def storeRPush (st : Store) (k : String) (elems : List (List Nat))
    (now : Int) : ListResult × Store :=
  let s := purgeExpired st k now
  match alookup k s.data with
  | none => (.ok elems.length, ⟨aset k (.list elems) s.data, s.ttl⟩)
  | some (.list l) =>
    let nl := l ++ elems
    (.ok nl.length, ⟨aset k (.list nl) s.data, s.ttl⟩)
  | some _ => (.wrongType, s)

/-- Modelled from the spec: `Store.LPop` is absent from the sources.
Per spec §4.2, up to `count` (`count ≥ 1` at the call sites) head
elements are removed and returned in removal order; an absent key gives
null; a key left empty is removed from the keyspace; non-lists fail
`WRONGTYPE`. -/
def storeLPop (st : Store) (k : String) (count : Nat) (now : Int) :
    PopResult × Store :=
  let s := purgeExpired st k now
  match alookup k s.data with
  | none => (.null, s)
  | some (.list l) =>
    let removed := l.take count
    let rest := l.drop count
    if rest.isEmpty then (.vals removed, ⟨adel k s.data, s.ttl⟩)
    else (.vals removed, ⟨aset k (.list rest) s.data, s.ttl⟩)
  | some _ => (.wrongType, s)

/-- Modelled from the spec: `Store.RPop`, symmetric on the tail,
returning the removed suffix in ascending positional order. -/
def storeRPop (st : Store) (k : String) (count : Nat) (now : Int) :
    PopResult × Store :=
  let s := purgeExpired st k now
  match alookup k s.data with
  | none => (.null, s)
  | some (.list l) =>
    let keep := l.length - count
    let removed := l.drop keep
    let rest := l.take keep
    if rest.isEmpty then (.vals removed, ⟨adel k s.data, s.ttl⟩)
    else (.vals removed, ⟨aset k (.list rest) s.data, s.ttl⟩)
  | some _ => (.wrongType, s)

/-- Modelled from the spec: `Store.LLen` — length, `0` when absent,
`WRONGTYPE` otherwise. -/
def storeLLen (st : Store) (k : String) (now : Int) : ListResult × Store :=
  let s := purgeExpired st k now
  match alookup k s.data with
  | none => (.ok 0, s)
  | some (.list l) => (.ok l.length, s)
  | some _ => (.wrongType, s)

/-- One store operation, as reachable from the command dispatcher.  The
push constructors carry a first element separately because `LPUSH` and
`RPUSH` have arity ≥ 3 (at least one element).  Operations that need the
clock carry their own instant. -/
inductive Op where
  | set (k : String) (v : List Nat)
  | del (ks : List String)
  | incrBy (k : String) (d : Int)
  | get (k : String) (now : Int)
  | getTC (k : String) (now : Int)
  | lpush (k : String) (e : List Nat) (es : List (List Nat)) (now : Int)
  | rpush (k : String) (e : List Nat) (es : List (List Nat)) (now : Int)
  | lpop (k : String) (count : Nat) (now : Int)
  | rpop (k : String) (count : Nat) (now : Int)
  | llen (k : String) (now : Int)
  | expire (cmd : ExpCmd) (k : String) (t : Int) (opt : Option String) (now : Int)
  | ttlq (k : String) (now : Int)

/-- The state component of running one operation. -/
def applyOp (st : Store) : Op → Store
  | .set k v => storeSet st k v
  | .del ks => (storeDel st ks).2
  | .incrBy k d => (storeIncrBy st k d).2
  | .get k now => (storeGet st k now).2
  | .getTC k now => (getWithTypeCheckM st k now).2
  | .lpush k e es now => (storeLPush st k (e :: es) now).2
  | .rpush k e es now => (storeRPush st k (e :: es) now).2
  | .lpop k count now => (storeLPop st k count now).2
  | .rpop k count now => (storeRPop st k count now).2
  | .llen k now => (storeLLen st k now).2
  | .expire cmd k t opt now => (handleExpireM cmd st k t opt now).2
  | .ttlq k now => (handleTTLM st k now).2

/-- Invariant L1: every list in the keyspace is non-empty. -/
def listInv (st : Store) : Prop :=
  ∀ k l, alookup k st.data = some (.list l) → l ≠ []

/-! ## Association-list lemmas -/

theorem alookup_aset_self {α : Type} (k : String) (v : α) :
    ∀ m : List (String × α), alookup k (aset k v m) = some v := by
  intro m
  induction m with
  | nil => simp [aset, alookup]
  | cons e tl ih =>
    by_cases h : e.1 = k
    · simp [aset, h, alookup]
    · simp only [aset, h, if_false]
      simpa [alookup, h] using ih

theorem alookup_aset_ne {α : Type} (k k' : String) (v : α) (h : k' ≠ k) :
    ∀ m : List (String × α), alookup k' (aset k v m) = alookup k' m := by
  intro m
  induction m with
  | nil =>
    simp only [aset, alookup]
    rw [if_neg (fun hh : k = k' => h hh.symm)]
  | cons e tl ih =>
    by_cases he : e.1 = k
    · simp only [aset, he, if_true, alookup]
      rw [if_neg (fun hh : k = k' => h hh.symm), if_neg (he ▸ fun hh : e.1 = k' => h (he ▸ hh).symm)]
    · simp only [aset, he, if_false, alookup]
      by_cases he' : e.1 = k'
      · simp [he']
      · simpa [he'] using ih

theorem alookup_adel_self {α : Type} (k : String) :
    ∀ m : List (String × α), alookup k (adel k m) = none := by
  intro m
  induction m with
  | nil => simp [adel, alookup]
  | cons e tl ih =>
    by_cases h : e.1 = k
    · simpa [adel, h] using ih
    · simp only [adel, h, if_false, alookup]
      simpa [h] using ih

theorem alookup_adel_ne {α : Type} (k k' : String) (h : k' ≠ k) :
    ∀ m : List (String × α), alookup k' (adel k m) = alookup k' m := by
  intro m
  induction m with
  | nil => simp [adel, alookup]
  | cons e tl ih =>
    by_cases he : e.1 = k
    · simp only [adel, he, if_true, alookup]
      rw [ih, if_neg (he ▸ fun hh : e.1 = k' => h (he ▸ hh).symm)]
    · simp only [adel, he, if_false, alookup]
      by_cases he' : e.1 = k'
      · simp [he']
      · simpa [he'] using ih

/-! ## C4: the list-length invariant -/

/-- Auxiliary recursion equal to `storeDel`'s loop, convenient for
induction. -/
def delAux (st : Store) : List String → Nat × Store
  | [] => (0, st)
  | k :: ks =>
    if (alookup k st.data).isSome then
      let r := delAux ⟨adel k st.data, st.ttl⟩ ks
      (r.1 + 1, r.2)
    else delAux st ks

theorem storeDel_shift (ks : List String) :
    ∀ (n : Nat) (st : Store),
      ks.foldl
        (fun acc k =>
          if (alookup k acc.2.data).isSome then
            (acc.1 + 1, ⟨adel k acc.2.data, acc.2.ttl⟩) else acc)
        (n, st)
      = (n + (storeDel st ks).1, (storeDel st ks).2) := by
  induction ks with
  | nil => intro n st; simp [storeDel]
  | cons k ks ih =>
    intro n st
    simp only [storeDel, List.foldl_cons]
    by_cases h : (alookup k st.data).isSome = true
    · rw [if_pos h, if_pos h, ih (n + 1), ih 1]
      simp only [Prod.mk.injEq]
      refine ⟨by omega, ?_⟩
      simp
    · rw [if_neg h, if_neg h, ih n, ih 0]
      simp

theorem storeDel_eq_delAux (ks : List String) :
    ∀ st : Store, storeDel st ks = delAux st ks := by
  induction ks with
  | nil => intro st; simp [storeDel, delAux]
  | cons k ks ih =>
    intro st
    simp only [storeDel, List.foldl_cons, delAux]
    by_cases h : (alookup k st.data).isSome = true
    · rw [if_pos h, if_pos h, storeDel_shift, ih]
      simp only [Prod.mk.injEq]
      refine ⟨by omega, ?_⟩
      simp
    · rw [if_neg h, if_neg h, storeDel_shift, ih]
      simp

/-- `listInv` restated on a bare keyspace. -/
def listInvD (d : List (String × StoredValue)) : Prop :=
  ∀ k l, alookup k d = some (.list l) → l ≠ []

theorem listInvD_aset_nonlist (d : List (String × StoredValue)) (k : String)
    (v : StoredValue) (hv : ∀ l, v ≠ .list l) (hd : listInvD d) :
    listInvD (aset k v d) := by
  intro k' l' h
  by_cases hk : k' = k
  · subst hk
    rw [alookup_aset_self] at h
    exact absurd (Option.some_injective _ h) (hv l')
  · rw [alookup_aset_ne _ _ _ hk] at h
    exact hd k' l' h

theorem listInvD_aset_list (d : List (String × StoredValue)) (k : String)
    (l : List (List Nat)) (hl : l ≠ []) (hd : listInvD d) :
    listInvD (aset k (.list l) d) := by
  intro k' l' h
  by_cases hk : k' = k
  · subst hk
    rw [alookup_aset_self] at h
    cases Option.some_injective _ h
    exact hl
  · rw [alookup_aset_ne _ _ _ hk] at h
    exact hd k' l' h

theorem listInvD_adel (d : List (String × StoredValue)) (k : String)
    (hd : listInvD d) : listInvD (adel k d) := by
  intro k' l' h
  by_cases hk : k' = k
  · subst hk
    rw [alookup_adel_self] at h
    exact absurd h (by simp)
  · rw [alookup_adel_ne _ _ hk] at h
    exact hd k' l' h

theorem listInv_purge (st : Store) (k : String) (now : Int)
    (h : listInv st) : listInv (purgeExpired st k now) := by
  unfold purgeExpired
  cases halo : alookup k st.ttl with
  | none => exact h
  | some r =>
    by_cases hx : r.expiryTime ≤ now
    · simp only [hx, if_true]
      exact fun k' l' hl => listInvD_adel st.data k h k' l' hl
    · simp only [hx, if_false]
      exact h

theorem listInv_storeGet (st : Store) (k : String) (now : Int)
    (h : listInv st) : listInv (storeGet st k now).2 := by
  unfold storeGet
  cases alookup k st.data with
  | none => exact h
  | some val =>
    cases alookup k st.ttl with
    | none => exact h
    | some r =>
      by_cases hx : r.expiryTime ≤ now
      · simp only [hx, if_true]
        exact fun k' l' hl => listInvD_adel st.data k h k' l' hl
      · simp only [hx, if_false]
        exact h

theorem listInv_delAux (ks : List String) :
    ∀ st : Store, listInv st → listInv (delAux st ks).2 := by
  induction ks with
  | nil => intro st h; exact h
  | cons k ks ih =>
    intro st h
    simp only [delAux]
    by_cases hp : (alookup k st.data).isSome = true
    · rw [if_pos hp]
      exact ih ⟨adel k st.data, st.ttl⟩ (fun k' l' hl => listInvD_adel st.data k h k' l' hl)
    · rw [if_neg hp]
      exact ih st h

theorem handleExpireM_data (cmd : ExpCmd) (st : Store) (k : String)
    (t : Int) (opt : Option String) (now : Int) :
    (handleExpireM cmd st k t opt now).2.data = st.data := by
  simp only [handleExpireM, handleExpireOptionM]
  repeat' first | rfl | split

theorem listInv_of_data_eq (st st' : Store) (hd : st'.data = st.data)
    (h : listInv st) : listInv st' := by
  intro k l hl
  rw [hd] at hl
  exact h k l hl

theorem listInv_applyOp (st : Store) (op : Op) (h : listInv st) :
    listInv (applyOp st op) := by
  cases op with
  | set k v =>
    exact listInvD_aset_nonlist st.data k (.bytes v) (by intro l; simp) h
  | del ks =>
    simp only [applyOp, storeDel_eq_delAux]
    exact listInv_delAux ks st h
  | incrBy k d =>
    simp only [applyOp, storeIncrBy]
    split
    · exact listInvD_aset_nonlist st.data k (.counter d) (by intro l; simp) h
    · split
      · exact h
      · exact listInvD_aset_nonlist st.data k _ (by intro l; simp) h
    · exact listInvD_aset_nonlist st.data k _ (by intro l; simp) h
    · exact h
  | get k now => exact listInv_storeGet st k now h
  | getTC k now =>
    simp only [applyOp, getWithTypeCheckM]
    split
    · exact h
    · split
      · exact fun k' l' hl => listInvD_adel st.data k h k' l' hl
      · split <;> exact h
  | lpush k e es now =>
    have hs := listInv_purge st k now h
    simp only [applyOp, storeLPush]
    split
    · exact listInvD_aset_list _ k _ (by simp) hs
    · exact listInvD_aset_list _ k _ (by simp) hs
    · exact hs
  | rpush k e es now =>
    have hs := listInv_purge st k now h
    simp only [applyOp, storeRPush]
    split
    · exact listInvD_aset_list _ k _ (by simp) hs
    · exact listInvD_aset_list _ k _ (by simp) hs
    · exact hs
  | lpop k count now =>
    have hs := listInv_purge st k now h
    simp only [applyOp, storeLPop]
    split
    · exact hs
    · split
      · exact fun k' l' hl => listInvD_adel _ k hs k' l' hl
      · rename_i l hr
        exact listInvD_aset_list _ k _ (by simpa using hr) hs
    · exact hs
  | rpop k count now =>
    have hs := listInv_purge st k now h
    simp only [applyOp, storeRPop]
    split
    · exact hs
    · split
      · exact fun k' l' hl => listInvD_adel _ k hs k' l' hl
      · rename_i l hr
        exact listInvD_aset_list _ k _ (by simpa using hr) hs
    · exact hs
  | llen k now =>
    have hs := listInv_purge st k now h
    simp only [applyOp, storeLLen]
    split <;> exact hs
  | expire cmd k t opt now =>
    exact listInv_of_data_eq st _ (handleExpireM_data cmd st k t opt now) h
  | ttlq k now =>
    simp only [applyOp, handleTTLM]
    cases getTTL st k now with
    | some t => exact h
    | none =>
      cases hg : (storeGet st k now).1 with
      | none => exact listInv_storeGet st k now h
      | some b => exact listInv_storeGet st k now h

/-- C4: starting from the empty store, after any finite sequence of store
operations every key mapped to a `List` holds a list of length at least
one — every operation that would leave a list empty removes the key. -/
theorem c4_list_invariant (ops : List Op) :
    listInv (ops.foldl applyOp store0) := by
  have h0 : listInv store0 := by
    intro k l hl
    simp [store0, alookup] at hl
  have hgen : ∀ (l : List Op) (st : Store), listInv st → listInv (l.foldl applyOp st) := by
    intro l
    induction l with
    | nil => intro st h; exact h
    | cons op l ih =>
      intro st h
      exact ih (applyOp st op) (listInv_applyOp st op h)
  exact hgen ops store0 h0

theorem c4_witness : ([[97]] : List (List Nat)) ≠ [] :=
  c4_list_invariant [.rpush "k" [97] [] 0] "k" [[97]] rfl

/-! ## C2: IncrBy and overflow -/

/-- C2 counterexample: incrementing the largest `int64` by one does not
fail with an integer-range error as the claim demands — `IncrBy` returns
`.ok` with the two's-complement-wrapped value and stores it. -/
theorem c2_counterexample :
    storeIncrBy ⟨[("k", .counter 9223372036854775807)], []⟩ "k" 1
        = (.ok (-9223372036854775808),
           ⟨[("k", .counter (-9223372036854775808))], []⟩)
      ∧ (storeIncrBy ⟨[("k", .counter 9223372036854775807)], []⟩ "k" 1).1
          ≠ .errNotInt := by
  decide

/-- C2 (amended): for a key holding a `Counter`, `IncrBy` adds the delta
with Go's wrapping 64-bit two's-complement addition and stores and
returns the wrapped sum; it never reports an overflow error. -/
theorem c2_incrby_wraps (st : Store) (k : String) (n delta : Int)
    (h : alookup k st.data = some (.counter n)) :
    storeIncrBy st k delta =
      (.ok (wrap64 (n + delta)),
        ⟨aset k (.counter (wrap64 (n + delta))) st.data, st.ttl⟩) := by
  simp only [storeIncrBy, h]

theorem c2_witness :
    storeIncrBy ⟨[("k", .counter 5)], []⟩ "k" 2
      = (.ok (wrap64 (5 + 2)),
         ⟨aset "k" (.counter (wrap64 (5 + 2))) [("k", StoredValue.counter 5)], []⟩) :=
  c2_incrby_wraps ⟨[("k", .counter 5)], []⟩ "k" 5 2 rfl

/-! ## C3: Get against a List -/

/-- C3: `GetWithTypeCheck` (the store read behind the `GET` command)
against a key holding a `List` that is not expired fails `WRONGTYPE`,
leaves the store untouched, and in particular does not report the key
absent. -/
theorem c3_get_list_wrongtype (st : Store) (k : String) (now : Int)
    (l : List (List Nat)) (hl : alookup k st.data = some (.list l))
    (hv : ∀ r, alookup k st.ttl = some r → now < r.expiryTime) :
    getWithTypeCheckM st k now = (.wrongType, st) := by
  simp only [getWithTypeCheckM, hl]
  cases halo : alookup k st.ttl with
  | none => simp
  | some r =>
    have hlt : ¬r.expiryTime ≤ now := not_le.mpr (hv r halo)
    simp [hlt]

theorem c3_witness :
    getWithTypeCheckM ⟨[("k", .list [[97]])], []⟩ "k" 0
      = (.wrongType, ⟨[("k", .list [[97]])], []⟩) :=
  c3_get_list_wrongtype ⟨[("k", .list [[97]])], []⟩ "k" 0 [[97]] rfl
    (fun r hr => Option.noConfusion hr)

/-! ## C5: Del and the expiration table -/

/-- C5 counterexample: deleting a volatile key removes it from the
keyspace and counts it, but — contrary to the claim — its expiration
record survives untouched. -/
theorem c5_counterexample :
    storeDel ⟨[("k", .bytes [118])], [("k", ⟨100, 50⟩)]⟩ ["k"]
        = (1, ⟨[], [("k", ⟨100, 50⟩)]⟩)
      ∧ alookup "k" (storeDel ⟨[("k", .bytes [118])], [("k", ⟨100, 50⟩)]⟩ ["k"]).2.ttl
          = some ⟨100, 50⟩ := by
  decide

theorem delAux_ttl (ks : List String) :
    ∀ st : Store, (delAux st ks).2.ttl = st.ttl := by
  induction ks with
  | nil => intro st; rfl
  | cons k ks ih =>
    intro st
    simp only [delAux]
    by_cases hp : (alookup k st.data).isSome = true
    · rw [if_pos hp]
      exact ih ⟨adel k st.data, st.ttl⟩
    · rw [if_neg hp]
      exact ih st

theorem delAux_data (ks : List String) :
    ∀ (st : Store) (k : String),
      alookup k (delAux st ks).2.data
        = if k ∈ ks then none else alookup k st.data := by
  induction ks with
  | nil => intro st k; simp [delAux]
  | cons k0 ks ih =>
    intro st k
    simp only [delAux]
    by_cases hp : (alookup k0 st.data).isSome = true
    · rw [if_pos hp, ih]
      by_cases hks : k ∈ ks
      · simp [hks]
      · by_cases hk0 : k = k0
        · subst hk0
          simp [hks, alookup_adel_self]
        · rw [alookup_adel_ne k0 k hk0]
          simp [hks, hk0]
    · rw [if_neg hp, ih]
      by_cases hks : k ∈ ks
      · simp [hks]
      · by_cases hk0 : k = k0
        · subst hk0
          simp only [hks, if_false, List.mem_cons, true_or, if_true]
          simpa using hp
        · simp [hks, hk0]

theorem delAux_count (ks : List String) :
    ∀ st : Store, ks.Nodup →
      (delAux st ks).1
        = (ks.filter (fun k => (alookup k st.data).isSome)).length := by
  induction ks with
  | nil => intro st _; rfl
  | cons k0 ks ih =>
    intro st hnd
    have hni : k0 ∉ ks := (List.nodup_cons.mp hnd).1
    have hnd' : ks.Nodup := (List.nodup_cons.mp hnd).2
    simp only [delAux]
    by_cases hp : (alookup k0 st.data).isSome = true
    · rw [if_pos hp, ih _ hnd']
      have hsame :
          ks.filter (fun k => (alookup k (adel k0 st.data)).isSome)
            = ks.filter (fun k => (alookup k st.data).isSome) := by
        apply List.filter_congr
        intro k hk
        rw [alookup_adel_ne k0 k (fun he => hni (he ▸ hk))]
      rw [hsame, List.filter_cons_of_pos (by simpa using hp), List.length_cons]
    · rw [if_neg hp, ih _ hnd']
      rw [List.filter_cons_of_neg (by simpa using hp)]

/-- C5 (amended): `Del` removes each listed key from the keyspace and
returns how many of them were present, but it never touches the
expiration table. -/
theorem c5_del_behavior (st : Store) (keys : List String) (h : keys.Nodup) :
    (storeDel st keys).2.ttl = st.ttl
    ∧ (∀ k, alookup k (storeDel st keys).2.data
        = if k ∈ keys then none else alookup k st.data)
    ∧ (storeDel st keys).1
        = (keys.filter (fun k => (alookup k st.data).isSome)).length := by
  rw [storeDel_eq_delAux]
  exact ⟨delAux_ttl keys st, fun k => delAux_data keys st k, delAux_count keys st h⟩

theorem c5_witness :
    (storeDel ⟨[("a", .bytes [1]), ("b", .counter 2)], [("a", ⟨5, 5⟩)]⟩ ["a", "x"]).2.ttl
        = [("a", ⟨5, 5⟩)]
      ∧ alookup "a"
          (storeDel ⟨[("a", .bytes [1]), ("b", .counter 2)], [("a", ⟨5, 5⟩)]⟩ ["a", "x"]).2.data
          = none
      ∧ (storeDel ⟨[("a", .bytes [1]), ("b", .counter 2)], [("a", ⟨5, 5⟩)]⟩ ["a", "x"]).1 = 1 :=
  ⟨(c5_del_behavior _ _ (by decide)).1,
   (c5_del_behavior _ _ (by decide)).2.1 "a",
   (c5_del_behavior _ _ (by decide)).2.2⟩

/-! ## C6: EXPIRE with non-positive seconds -/

/-- C6 counterexample: `EXPIRE k -1` on a store where `k` does not exist
replies Integer `1`, not the Integer `0` the claim requires for a key
that did not exist (and it would also leave a present key in the
keyspace). -/
theorem c6_counterexample :
    handleExpireM .expire ⟨[], []⟩ "k" (-1) none 0 = (.int 1, ⟨[], []⟩)
      ∧ Reply.int 1 ≠ Reply.int 0 := by
  decide

/-- C6 (amended): option-less `EXPIRE` with seconds `t < 0` deletes any
expiration record for the key, leaves the keyspace unchanged, and replies
Integer `1` unconditionally; with `t = 0` it instead installs a record
whose deadline is the current instant (duration `0`) and replies `1`. -/
theorem c6_expire_nonpos (st : Store) (k : String) (t : Int) (now : Int) :
    (t < 0 → handleExpireM .expire st k t none now
        = (.int 1, ⟨st.data, adel k st.ttl⟩))
    ∧ (t = 0 → handleExpireM .expire st k t none now
        = (.int 1, ⟨st.data, aset k ⟨now, 0⟩ st.ttl⟩)) := by
  constructor
  · intro ht
    simp [handleExpireM, ht]
  · intro ht
    subst ht
    have hw : wrap64 0 = 0 := by decide
    simp [handleExpireM, expSetter, hw]

theorem c6_witness :
    (handleExpireM .expire ⟨[("k", .bytes [118])], [("k", ⟨9, 9⟩)]⟩ "k" (-1) none 0
        = (.int 1, ⟨[("k", .bytes [118])], []⟩))
      ∧ (handleExpireM .expire ⟨[], []⟩ "k" 0 none 7
        = (.int 1, ⟨[], [("k", ⟨7, 0⟩)]⟩)) :=
  ⟨(c6_expire_nonpos ⟨[("k", .bytes [118])], [("k", ⟨9, 9⟩)]⟩ "k" (-1) 0).1 (by decide),
   (c6_expire_nonpos ⟨[], []⟩ "k" 0 7).2 rfl⟩

/-! ## C7: the TTL reply -/

/-- C7 counterexample: a record expiring in 1.5 seconds yields the reply
Integer `1` (truncating division), not the `2` the claim's ceiling
requires. -/
theorem c7_counterexample :
    handleTTLM ⟨[("k", .bytes [97])], [("k", ⟨1500000000, 1500000000⟩)]⟩ "k" 0
        = (.int 1, ⟨[("k", .bytes [97])], [("k", ⟨1500000000, 1500000000⟩)]⟩)
      ∧ (1 : Int) ≠ 2 := by
  decide

/-- C7 (amended): `TTL` consults the expiration table first — an
unexpired record yields the remaining time truncated (floored) to whole
seconds, even when the key is absent from the keyspace; only otherwise
does it fall back to `Get`: `-2` when `Get` reports the key absent (key
missing, key holding a `List`, or record expired — in the last case the
key and record are lazily deleted), and `-1` when `Get` finds a
non-volatile key. -/
theorem c7_ttl_behavior (st : Store) (k : String) (now : Int) :
    (∀ r, alookup k st.ttl = some r → now < r.expiryTime →
      handleTTLM st k now = (.int ((r.expiryTime - now) / nsPerSec), st))
    ∧ (alookup k st.ttl = none → alookup k st.data = none →
      handleTTLM st k now = (.int (-2), st))
    ∧ (∀ v, alookup k st.ttl = none → alookup k st.data = some v →
      handleTTLM st k now
        = (.int (if (WrapValue v).isSome then -1 else -2), st))
    ∧ (∀ r v, alookup k st.ttl = some r → r.expiryTime ≤ now →
        alookup k st.data = some v →
      handleTTLM st k now = (.int (-2), ⟨adel k st.data, adel k st.ttl⟩)) := by
  refine ⟨?_, ?_, ?_, ?_⟩
  · intro r hr hlt
    have hx : ¬r.expiryTime ≤ now := not_le.mpr hlt
    simp [handleTTLM, getTTL, hr, hx]
  · intro h1 h2
    simp [handleTTLM, getTTL, storeGet, h1, h2]
  · intro v h1 h2
    cases hw : WrapValue v with
    | none => simp [handleTTLM, getTTL, storeGet, h1, h2, hw]
    | some b => simp [handleTTLM, getTTL, storeGet, h1, h2, hw]
  · intro r v h1 h2 h3
    simp [handleTTLM, getTTL, storeGet, h1, h2, h3]

theorem c7_witness :
    handleTTLM ⟨[], [("k", ⟨1500000000, 1500000000⟩)]⟩ "k" 0
        = (.int 1, ⟨[], [("k", ⟨1500000000, 1500000000⟩)]⟩)
      ∧ handleTTLM ⟨[], []⟩ "k" 0 = (.int (-2), ⟨[], []⟩) :=
  ⟨(c7_ttl_behavior ⟨[], [("k", ⟨1500000000, 1500000000⟩)]⟩ "k" 0).1
      ⟨1500000000, 1500000000⟩ rfl (by decide),
   (c7_ttl_behavior ⟨[], []⟩ "k" 0).2.1 rfl rfl⟩

/-! ## C10: EXPIRE on an absent key -/

/-- C10: option-less `EXPIRE` with positive seconds on a key absent from
the keyspace installs an expiration record and replies Integer `1`; the
keyspace itself is never consulted or modified, so records exist for keys
that were never set. -/
theorem c10_expire_absent (st : Store) (k : String) (t : Int) (now : Int)
    (habs : alookup k st.data = none) (hpos : 0 < t) :
    handleExpireM .expire st k t none now
      = (.int 1,
         ⟨st.data,
          aset k ⟨now + wrap64 (t * nsPerSec), wrap64 (t * nsPerSec)⟩ st.ttl⟩) := by
  have hx : ¬t < 0 := not_lt.mpr hpos.le
  simp [handleExpireM, expSetter, hx]

theorem c10_witness :
    handleExpireM .expire ⟨[], []⟩ "k" 10 none 0
      = (.int 1,
         ⟨[], aset "k" ⟨0 + wrap64 (10 * nsPerSec), wrap64 (10 * nsPerSec)⟩ []⟩) :=
  c10_expire_absent ⟨[], []⟩ "k" 10 0 rfl (by decide)

/-! ## Decimal formatting and parsing lemmas -/

theorem natAsciiAux_eq (fuel : Nat) :
    ∀ (n : Nat) (acc : List Nat), n ≤ fuel →
      natAsciiAux fuel n acc
        = ((Nat.digits 10 n).reverse.map (fun d => d + 48)) ++ acc := by
  induction fuel with
  | zero =>
    intro n acc hn
    have h0 : n = 0 := Nat.le_zero.mp hn
    subst h0
    simp [natAsciiAux]
  | succ fuel ih =>
    intro n acc hn
    cases n with
    | zero => simp [natAsciiAux]
    | succ m =>
      have hlt : (m + 1) / 10 < m + 1 := Nat.div_lt_self (Nat.succ_pos m) (by norm_num)
      simp only [natAsciiAux]
      rw [ih ((m + 1) / 10) _ (by omega)]
      rw [Nat.digits_def' (b := 10) (by norm_num) (Nat.succ_pos m)]
      simp [List.map_append]

theorem natAscii_eq (n : Nat) :
    natAscii n
      = if n = 0 then [48] else (Nat.digits 10 n).reverse.map (fun d => d + 48) := by
  unfold natAscii
  by_cases h : n = 0
  · simp [h]
  · simp [h, natAsciiAux_eq n n [] le_rfl]

theorem foldl_digits_rev (ds : List Nat) :
    ∀ a : Nat,
      (ds.reverse.map (fun d => d + 48)).foldl (fun x d => x * 10 + (d - 48)) a
        = a * 10 ^ ds.length + Nat.ofDigits 10 ds := by
  induction ds with
  | nil => intro a; simp [Nat.ofDigits]
  | cons d tl ih =>
    intro a
    simp only [List.reverse_cons, List.map_append, List.foldl_append, ih a]
    simp only [List.map_cons, List.map_nil, List.foldl_cons, List.foldl_nil,
      Nat.ofDigits_cons, List.length_cons, Nat.add_sub_cancel]
    ring

theorem valOfDigits_natAscii (n : Nat) : valOfDigits (natAscii n) = n := by
  rw [natAscii_eq]
  by_cases h : n = 0
  · simp [h, valOfDigits]
  · simp only [h, if_false]
    unfold valOfDigits
    rw [foldl_digits_rev]
    simp [Nat.ofDigits_digits]

theorem natAscii_all_digits (n : Nat) : ∀ d ∈ natAscii n, isDigitB d = true := by
  rw [natAscii_eq]
  by_cases h : n = 0
  · simp [h, isDigitB]
  · simp only [h, if_false]
    intro d hd
    simp only [List.mem_map, List.mem_reverse] at hd
    obtain ⟨x, hx, rfl⟩ := hd
    have := Nat.digits_lt_base (by norm_num) hx
    simp only [isDigitB, Bool.and_eq_true, decide_eq_true_eq]
    omega

theorem natAscii_ne_nil (n : Nat) : natAscii n ≠ [] := by
  rw [natAscii_eq]
  by_cases h : n = 0
  · simp [h]
  · simp [h, Nat.digits_ne_nil_iff_ne_zero.mpr h]

theorem intAscii_no_ws (n : Int) : ∀ b ∈ intAscii n, isWS b = false := by
  intro b hb
  unfold intAscii at hb
  by_cases hn : n < 0
  · simp only [hn, if_true, List.mem_cons] at hb
    cases hb with
    | inl h => subst h; rfl
    | inr h =>
      have := natAscii_all_digits n.natAbs b h
      simp only [isDigitB, Bool.and_eq_true, decide_eq_true_eq] at this
      simp only [isWS, Bool.or_eq_false_iff, Bool.and_eq_false_iff]
      constructor
      · simp only [decide_eq_false_iff_not]
        omega
      · right
        simp only [decide_eq_false_iff_not]
        omega
  · simp only [hn, if_false] at hb
    have := natAscii_all_digits n.natAbs b hb
    simp only [isDigitB, Bool.and_eq_true, decide_eq_true_eq] at this
    simp only [isWS, Bool.or_eq_false_iff, Bool.and_eq_false_iff]
    constructor
    · simp only [decide_eq_false_iff_not]
      omega
    · right
      simp only [decide_eq_false_iff_not]
      omega

theorem intAscii_not_mem_10 (n : Int) : 10 ∉ intAscii n := by
  intro hm
  have := intAscii_no_ws n 10 hm
  simp [isWS] at this

theorem intAscii_ne_nil (n : Int) : intAscii n ≠ [] := by
  unfold intAscii
  by_cases hn : n < 0
  · simp [hn]
  · simp [hn, natAscii_ne_nil]

theorem parseInt_intAscii (n : Int) (h1 : -(2 ^ 63) ≤ n) (h2 : n < 2 ^ 63) :
    parseInt (intAscii n) = some n := by
  by_cases hn : n < 0
  · have hsh : intAscii n = 45 :: natAscii n.natAbs := by simp [intAscii, hn]
    obtain ⟨c, cs, hcc⟩ : ∃ c cs, natAscii n.natAbs = c :: cs := by
      cases h' : natAscii n.natAbs with
      | nil => exact absurd h' (natAscii_ne_nil n.natAbs)
      | cons c cs => exact ⟨c, cs, rfl⟩
    have hall : (natAscii n.natAbs).all isDigitB = true :=
      List.all_eq_true.mpr (natAscii_all_digits n.natAbs)
    have hval : (valOfDigits (natAscii n.natAbs) : Int) = -n := by
      rw [valOfDigits_natAscii]
      exact Int.ofNat_natAbs_of_nonpos hn.le
    rw [hsh, hcc] at *
    simp only [parseInt, hcc]
    have hrange : -(2 ^ 63) ≤ -(valOfDigits (c :: cs) : Int)
        ∧ -(valOfDigits (c :: cs) : Int) < 2 ^ 63 := by
      rw [show ((valOfDigits (c :: cs) : Int) = -n) from hcc ▸ hval]
      constructor <;> omega
    simp [hall, hrange, show ((valOfDigits (c :: cs) : Int) = -n) from hcc ▸ hval]
    omega
  · have hsh : intAscii n = natAscii n.natAbs := by simp [intAscii, hn]
    obtain ⟨c, cs, hcc⟩ : ∃ c cs, natAscii n.natAbs = c :: cs := by
      cases h' : natAscii n.natAbs with
      | nil => exact absurd h' (natAscii_ne_nil n.natAbs)
      | cons c cs => exact ⟨c, cs, rfl⟩
    have hall : (natAscii n.natAbs).all isDigitB = true :=
      List.all_eq_true.mpr (natAscii_all_digits n.natAbs)
    have hc : isDigitB c = true := by
      have := natAscii_all_digits n.natAbs c (by rw [hcc]; exact List.mem_cons_self c cs)
      exact this
    have hc45 : c ≠ 45 := by
      simp only [isDigitB, Bool.and_eq_true, decide_eq_true_eq] at hc
      omega
    have hc43 : c ≠ 43 := by
      simp only [isDigitB, Bool.and_eq_true, decide_eq_true_eq] at hc
      omega
    have hval : (valOfDigits (natAscii n.natAbs) : Int) = n := by
      rw [valOfDigits_natAscii]
      exact Int.natAbs_of_nonneg (not_lt.mp hn)
    rw [hsh, hcc] at *
    simp only [parseInt, hcc]
    have hds : (if c = 45 || c = 43 then cs else c :: cs) = c :: cs := by
      simp [hc45, hc43]
    rw [hds]
    have hrange : -(2 ^ 63) ≤ (valOfDigits (c :: cs) : Int)
        ∧ (valOfDigits (c :: cs) : Int) < 2 ^ 63 := by
      rw [show ((valOfDigits (c :: cs) : Int) = n) from hcc ▸ hval]
      constructor <;> omega
    simp [hall, hc45, hrange, show ((valOfDigits (c :: cs) : Int) = n) from hcc ▸ hval]
    omega


/-! ## Codec round trip: sizes, well-formedness, induction principle -/

/-- Top-level parse with explicit fuel: `Deserialize` after its
`ReadByte`. -/
def parseTop (fuel : Nat) (input : List Nat) : PResult RValue :=
  match input with
  | [] => .fail
  | b :: r => parseValue fuel b r

theorem deserialize_eq_parseTop (input : List Nat) :
    deserialize input = parseTop input.length input := by
  cases input <;> rfl

mutual

/-- Number of protocol values contained in a value (an upper bound for
the `handleCommand` recursion depth). -/
def sizeV : RValue → Nat
  | .simple _ => 1
  | .err _ => 1
  | .int _ => 1
  | .bulk _ => 1
  | .null => 1
  | .array vs => 1 + sizeVL vs
termination_by structural v => v

/-- Sum of the sizes of a list of values. -/
def sizeVL : List RValue → Nat
  | [] => 0
  | v :: vs => sizeV v + sizeVL vs
termination_by structural l => l

end

mutual

/-- The claim's well-formedness hypothesis together with the bounds Go's
types impose: `SimpleString`/`Error` payloads are CR- and LF-free (the
claim's proviso), `Integer` payloads are `int64` (true of any Go
`Integer`), and slice lengths fit an `int` (true of any Go slice). -/
def wfB : RValue → Bool
  | .simple s => s.all (fun b => b ≠ 13 && b ≠ 10)
  | .err s => s.all (fun b => b ≠ 13 && b ≠ 10)
  | .int n => decide (-(2 ^ 63) ≤ n) && decide (n < 2 ^ 63)
  | .bulk b => decide ((b.length : Int) < 2 ^ 63)
  | .null => true
  | .array vs => decide ((vs.length : Int) < 2 ^ 63) && wfBL vs
termination_by structural v => v

/-- `wfB` on every element. -/
def wfBL : List RValue → Bool
  | [] => true
  | v :: vs => wfB v && wfBL vs
termination_by structural l => l

end

mutual

/-- Induction over `RValue` with an auxiliary motive for element lists
(the nested `List RValue` makes the automatically generated recursor
inconvenient). -/
def rvalueInd (P : RValue → Prop) (Q : List RValue → Prop)
    (hs : ∀ s, P (.simple s)) (he : ∀ s, P (.err s)) (hi : ∀ n, P (.int n))
    (hb : ∀ b, P (.bulk b)) (hn : P .null) (ha : ∀ vs, Q vs → P (.array vs))
    (hq0 : Q []) (hq1 : ∀ v vs, P v → Q vs → Q (v :: vs)) : ∀ v, P v
  | .simple s => hs s
  | .err s => he s
  | .int n => hi n
  | .bulk b => hb b
  | .null => hn
  | .array vs => ha vs (rvalueIndL P Q hs he hi hb hn ha hq0 hq1 vs)
termination_by structural v => v

/-- List part of `rvalueInd`. -/
def rvalueIndL (P : RValue → Prop) (Q : List RValue → Prop)
    (hs : ∀ s, P (.simple s)) (he : ∀ s, P (.err s)) (hi : ∀ n, P (.int n))
    (hb : ∀ b, P (.bulk b)) (hn : P .null) (ha : ∀ vs, Q vs → P (.array vs))
    (hq0 : Q []) (hq1 : ∀ v vs, P v → Q vs → Q (v :: vs)) : ∀ vs, Q vs
  | [] => hq0
  | v :: vs =>
    hq1 v vs (rvalueInd P Q hs he hi hb hn ha hq0 hq1 v)
      (rvalueIndL P Q hs he hi hb hn ha hq0 hq1 vs)
termination_by structural vs => vs

end

theorem serialize_cons (v : RValue) : ∃ b t, serialize v = b :: t := by
  cases v <;> exact ⟨_, _, rfl⟩

theorem size_le_serialize :
    ∀ v : RValue, sizeV v ≤ (serialize v).length := by
  apply rvalueInd (Q := fun vs => sizeVL vs ≤ (serializeList vs).length)
  · intro s; simp [sizeV, serialize]
  · intro s; simp [sizeV, serialize]
  · intro n; simp [sizeV, serialize]
  · intro b; simp [sizeV, serialize]
  · simp [sizeV, serialize]
  · intro vs hq
    simp only [sizeV, serialize, List.length_cons, List.length_append]
    omega
  · simp [sizeVL, serializeList]
  · intro v vs hv hvs
    simp only [sizeVL, serializeList, List.length_append]
    omega

/-! ## Parsing helper lemmas -/

theorem readString_append (l rest : List Nat) (h : 10 ∉ l) :
    readString (l ++ 10 :: rest) = (l ++ [10], rest, true) := by
  induction l with
  | nil => simp [readString]
  | cons b bs ih =>
    have hb : ¬b = 10 := fun he => h (he ▸ List.mem_cons_self b bs)
    have h' : 10 ∉ bs := fun hm => h (List.mem_cons_of_mem b hm)
    simp [readString, hb, ih h']

theorem trimCRLF_append (s : List Nat) : trimCRLF (s ++ [13, 10]) = s := by
  simp [trimCRLF, List.reverse_append]

theorem trimSpace_append_crlf (l : List Nat) (hne : l ≠ [])
    (h : ∀ b ∈ l, isWS b = false) : trimSpace (l ++ [13, 10]) = l := by
  obtain ⟨c, cs, rfl⟩ : ∃ c cs, l = c :: cs := by
    cases l with
    | nil => exact absurd rfl hne
    | cons c cs => exact ⟨c, cs, rfl⟩
  have hc : isWS c = false := h c (List.mem_cons_self c cs)
  unfold trimSpace
  rw [List.cons_append, List.dropWhile_cons]
  simp only [hc, Bool.false_eq_true, if_false]
  rw [show (c :: (cs ++ [13, 10])) = ((c :: cs) ++ [13, 10]) from rfl]
  rw [List.reverse_append]
  show (((List.reverse [13, 10]) ++ (c :: cs).reverse).dropWhile isWS).reverse = c :: cs
  obtain ⟨d, ds, hrev⟩ : ∃ d ds, (c :: cs).reverse = d :: ds := by
    have hnn : (c :: cs).reverse ≠ [] := by simp
    cases hr : (c :: cs).reverse with
    | nil => exact absurd hr hnn
    | cons d ds => exact ⟨d, ds, rfl⟩
  have hd : isWS d = false := by
    apply h
    rw [← List.mem_reverse, hrev]
    exact List.mem_cons_self d ds
  rw [hrev]
  show (List.dropWhile isWS (10 :: 13 :: d :: ds)).reverse = c :: cs
  rw [List.dropWhile_cons, List.dropWhile_cons, List.dropWhile_cons]
  simp only [show isWS 10 = true from rfl, show isWS 13 = true from rfl, hd,
    if_true, Bool.false_eq_true, if_false]
  rw [← hrev, List.reverse_reverse]

theorem readFull_exact (l rest : List Nat) :
    readFull l.length (l ++ rest) = some (l, rest) := by
  unfold readFull
  rw [if_neg (by simp)]
  rw [List.take_left, List.drop_left]

theorem intAscii_mem (n : Int) :
    ∀ b ∈ intAscii n, b = 45 ∨ isDigitB b = true := by
  intro b hb
  unfold intAscii at hb
  by_cases hn : n < 0
  · simp only [hn, if_true, List.mem_cons] at hb
    cases hb with
    | inl h => exact Or.inl h
    | inr h => exact Or.inr (natAscii_all_digits n.natAbs b h)
  · simp only [hn, if_false] at hb
    exact Or.inr (natAscii_all_digits n.natAbs b hb)

theorem intAscii_head_ne_43 (n : Int) (c : Nat) (cs : List Nat)
    (h : intAscii n = c :: cs) : c ≠ 43 := by
  have hc : c ∈ intAscii n := by rw [h]; exact List.mem_cons_self c cs
  cases intAscii_mem n c hc with
  | inl h45 => omega
  | inr hd =>
    simp only [isDigitB, Bool.and_eq_true, decide_eq_true_eq] at hd
    omega


/-! ## The round-trip theorem -/

theorem parse_serialize :
    ∀ v : RValue, ∀ fuel extra, sizeV v ≤ fuel → wfB v = true →
      parseTop fuel (serialize v ++ extra) = .ok v extra := by
  apply rvalueInd
    (Q := fun vs => ∀ fuel extra, sizeVL vs ≤ fuel → wfBL vs = true →
      parseElems (fun b inp => parseValue fuel b inp) vs.length
        (serializeList vs ++ extra) = .ok vs extra)
  · -- SimpleString
    intro s fuel extra hsize hwf
    cases fuel with
    | zero => simp [sizeV] at hsize
    | succ f =>
      simp only [wfB] at hwf
      have h10 : (10 : Nat) ∉ s ++ [13] := by
        intro hm
        rcases List.mem_append.mp hm with hs' | h13
        · have := List.all_eq_true.mp hwf 10 hs'
          simp at this
        · simp at h13
      have harr : serialize (.simple s) ++ extra = 43 :: ((s ++ [13]) ++ 10 :: extra) := by
        simp [serialize, crlf]
      rw [harr]
      show parseValue (f + 1) 43 ((s ++ [13]) ++ 10 :: extra) = .ok (.simple s) extra
      simp only [parseValue]
      rw [if_pos trivial]
      simp only [readString_append _ _ h10]
      have hln : (s ++ [13]) ++ [10] = s ++ [13, 10] := by simp
      rw [hln, trimCRLF_append]
  · -- Error
    intro s fuel extra hsize hwf
    cases fuel with
    | zero => simp [sizeV] at hsize
    | succ f =>
      simp only [wfB] at hwf
      have h10 : (10 : Nat) ∉ s ++ [13] := by
        intro hm
        rcases List.mem_append.mp hm with hs' | h13
        · have := List.all_eq_true.mp hwf 10 hs'
          simp at this
        · simp at h13
      have harr : serialize (.err s) ++ extra = 45 :: ((s ++ [13]) ++ 10 :: extra) := by
        simp [serialize, crlf]
      rw [harr]
      show parseValue (f + 1) 45 ((s ++ [13]) ++ 10 :: extra) = .ok (.err s) extra
      simp only [parseValue]
      rw [if_neg (show ¬(45 : Nat) = 43 by omega), if_pos trivial]
      simp only [readString_append _ _ h10]
      have hln : (s ++ [13]) ++ [10] = s ++ [13, 10] := by simp
      rw [hln, trimCRLF_append]
  · -- Integer
    intro n fuel extra hsize hwf
    cases fuel with
    | zero => simp [sizeV] at hsize
    | succ f =>
      simp only [wfB, Bool.and_eq_true, decide_eq_true_eq] at hwf
      have h10 : (10 : Nat) ∉ intAscii n ++ [13] := by
        intro hm
        rcases List.mem_append.mp hm with hs' | h13
        · exact intAscii_not_mem_10 n hs'
        · simp at h13
      have harr : serialize (.int n) ++ extra
          = 58 :: ((intAscii n ++ [13]) ++ 10 :: extra) := by
        simp [serialize, crlf]
      rw [harr]
      show parseValue (f + 1) 58 ((intAscii n ++ [13]) ++ 10 :: extra) = .ok (.int n) extra
      simp only [parseValue]
      rw [if_neg (show ¬(58 : Nat) = 43 by omega), if_neg (show ¬(58 : Nat) = 45 by omega),
        if_pos trivial]
      simp only [handleIntegerM, readString_append _ _ h10]
      have hln : (intAscii n ++ [13]) ++ [10] = intAscii n ++ [13, 10] := by simp
      rw [hln, trimCRLF_append]
      obtain ⟨c, cs, hcc⟩ : ∃ c cs, intAscii n = c :: cs := by
        cases h' : intAscii n with
        | nil => exact absurd h' (intAscii_ne_nil n)
        | cons c cs => exact ⟨c, cs, rfl⟩
      have hc43 : ¬c = 43 := intAscii_head_ne_43 n c cs hcc
      rw [hcc]
      simp only [hc43, if_false]
      rw [← hcc, parseInt_intAscii n hwf.1 hwf.2]
  · -- BulkString
    intro b fuel extra hsize hwf
    cases fuel with
    | zero => simp [sizeV] at hsize
    | succ f =>
      simp only [wfB, decide_eq_true_eq] at hwf
      have hnn : (0 : Int) ≤ (b.length : Int) := Int.natCast_nonneg _
      have h10 : (10 : Nat) ∉ intAscii (b.length : Int) ++ [13] := by
        intro hm
        rcases List.mem_append.mp hm with hs' | h13
        · exact intAscii_not_mem_10 _ hs'
        · simp at h13
      have harr : serialize (.bulk b) ++ extra
          = 36 :: ((intAscii (b.length : Int) ++ [13])
              ++ 10 :: ((b ++ [13, 10]) ++ extra)) := by
        simp [serialize, crlf]
      rw [harr]
      show parseValue (f + 1) 36 ((intAscii (b.length : Int) ++ [13])
          ++ 10 :: ((b ++ [13, 10]) ++ extra)) = .ok (.bulk b) extra
      simp only [parseValue]
      rw [if_neg (show ¬(36 : Nat) = 43 by omega), if_neg (show ¬(36 : Nat) = 45 by omega),
        if_neg (show ¬(36 : Nat) = 58 by omega), if_pos trivial]
      simp only [handleBulkStringM, readString_append _ _ h10]
      have hln : (intAscii (b.length : Int) ++ [13]) ++ [10]
          = intAscii (b.length : Int) ++ [13, 10] := by simp
      rw [hln, trimSpace_append_crlf _ (intAscii_ne_nil _) (intAscii_no_ws _)]
      rw [parseInt_intAscii _ (by omega) (by omega)]
      simp only [Int.toNat_natCast]
      rw [if_neg (by omega), if_neg (by omega)]
      have hlen2 : b.length + 2 = (b ++ [13, 10]).length := by simp
      rw [hlen2, readFull_exact]
      simp only [List.take_left]
  · -- null bulk
    intro fuel extra hsize hwf
    cases fuel with
    | zero => simp [sizeV] at hsize
    | succ f =>
      show parseValue (f + 1) 36 ([45, 49, 13, 10] ++ extra) = .ok .null extra
      simp only [parseValue]
      rw [if_neg (show ¬(36 : Nat) = 43 by omega), if_neg (show ¬(36 : Nat) = 45 by omega),
        if_neg (show ¬(36 : Nat) = 58 by omega), if_pos trivial]
      simp [handleBulkStringM, readString, trimSpace, isWS, parseInt, isDigitB,
        valOfDigits]
  · -- Array
    intro vs hq fuel extra hsize hwf
    cases fuel with
    | zero => simp [sizeV] at hsize
    | succ f =>
      simp only [wfB, Bool.and_eq_true, decide_eq_true_eq] at hwf
      have hnn : (0 : Int) ≤ (vs.length : Int) := Int.natCast_nonneg _
      have h10 : (10 : Nat) ∉ intAscii (vs.length : Int) ++ [13] := by
        intro hm
        rcases List.mem_append.mp hm with hs' | h13
        · exact intAscii_not_mem_10 _ hs'
        · simp at h13
      have harr : serialize (.array vs) ++ extra
          = 42 :: ((intAscii (vs.length : Int) ++ [13])
              ++ 10 :: (serializeList vs ++ extra)) := by
        simp [serialize, crlf]
      rw [harr]
      show parseValue (f + 1) 42 ((intAscii (vs.length : Int) ++ [13])
          ++ 10 :: (serializeList vs ++ extra)) = .ok (.array vs) extra
      simp only [parseValue]
      rw [if_neg (show ¬(42 : Nat) = 43 by omega), if_neg (show ¬(42 : Nat) = 45 by omega),
        if_neg (show ¬(42 : Nat) = 58 by omega), if_neg (show ¬(42 : Nat) = 36 by omega),
        if_pos trivial]
      simp only [readString_append _ _ h10]
      have hln : (intAscii (vs.length : Int) ++ [13]) ++ [10]
          = intAscii (vs.length : Int) ++ [13, 10] := by simp
      rw [hln, trimSpace_append_crlf _ (intAscii_ne_nil _) (intAscii_no_ws _)]
      rw [parseInt_intAscii _ (by omega) hwf.1]
      simp only [Int.toNat_natCast]
      rw [if_neg (by omega)]
      have hsz : sizeVL vs ≤ f := by
        simp only [sizeV] at hsize
        omega
      rw [hq f extra hsz hwf.2]
  · -- empty element list
    intro fuel extra hsize hwf
    simp [serializeList, parseElems]
  · -- element cons
    intro v vs hv hvs fuel extra hsize hwf
    simp only [wfBL, Bool.and_eq_true] at hwf
    simp only [sizeVL] at hsize
    obtain ⟨b, t, hbt⟩ := serialize_cons v
    have hshape : serializeList (v :: vs) ++ extra
        = b :: (t ++ (serializeList vs ++ extra)) := by
      simp [serializeList, hbt]
    rw [hshape]
    show parseElems (fun b inp => parseValue fuel b inp) (vs.length + 1)
        (b :: (t ++ (serializeList vs ++ extra))) = .ok (v :: vs) extra
    simp only [parseElems, readByte]
    have hpv : parseValue fuel b (t ++ (serializeList vs ++ extra))
        = .ok v (serializeList vs ++ extra) := by
      have hmain := hv fuel (serializeList vs ++ extra) (by omega) hwf.1
      rw [hbt] at hmain
      simpa [parseTop] using hmain
    rw [hpv]
    have hrest := hvs fuel extra (by omega) hwf.2
    simp only [hrest]

/-- C1: for every protocol value whose `SimpleString` and `Error`
payloads contain no CR or LF (and whose integers and lengths are within
Go's `int64`/`int` ranges, as any Go `Value` is), deserializing the bytes
produced by `Serialize` yields the value back with no input left over; in
particular the null bulk serializes as `$-1\x0d\x0a`. -/
theorem c1_roundtrip (v : RValue) (h : wfB v = true) :
    deserialize (serialize v) = .ok v []
      ∧ serialize .null = [36, 45, 49, 13, 10] := by
  constructor
  · rw [deserialize_eq_parseTop]
    have := parse_serialize v (serialize v).length [] (size_le_serialize v) h
    simpa using this
  · rfl

theorem c1_witness :
    deserialize (serialize (.array [.null, .bulk [97, 98], .int (-5), .simple [79, 75]]))
        = .ok (.array [.null, .bulk [97, 98], .int (-5), .simple [79, 75]]) []
      ∧ serialize .null = [36, 45, 49, 13, 10] :=
  c1_roundtrip (.array [.null, .bulk [97, 98], .int (-5), .simple [79, 75]]) (by decide)


/-! ## C8: inline parsing -/

/-- C8 counterexample: the inline request `GET k` deserializes to an
`Array` holding only the command name wrapped as a `SimpleString` — not,
as the claim states, an `Array` of every whitespace-separated token each
wrapped as a `BulkString`. -/
theorem c8_counterexample :
    deserialize [71, 69, 84, 32, 107, 13, 10]
        = .ok (.array [.simple [71, 69, 84]]) []
      ∧ deserialize [71, 69, 84, 32, 107, 13, 10]
          ≠ .ok (.array [.bulk [71, 69, 84], .bulk [107]]) [] := by
  constructor
  · rfl
  · have h : deserialize [71, 69, 84, 32, 107, 13, 10]
        = .ok (.array [.simple [71, 69, 84]]) [] := rfl
    rw [h]
    simp

/-- C8 (amended): when the first byte is none of the five type bytes, the
codec reads the rest of the line, trims a trailing CR LF, splits the
line (first byte included) on runs of ASCII whitespace, and emits an
`Array` containing only the first token, wrapped as a `SimpleString`;
the remaining tokens are discarded. -/
theorem c8_inline_behavior (b : Nat) (line rest t0 : List Nat)
    (ts : List (List Nat))
    (h43 : b ≠ 43) (h45 : b ≠ 45) (h58 : b ≠ 58) (h36 : b ≠ 36) (h42 : b ≠ 42)
    (hl : (10 : Nat) ∉ line)
    (ht : fields (trimCRLF (b :: (line ++ [10]))) = t0 :: ts) :
    deserialize (b :: (line ++ 10 :: rest)) = .ok (.array [.simple t0]) rest := by
  rw [deserialize_eq_parseTop]
  show parseValue ((b :: (line ++ 10 :: rest)).length) b (line ++ 10 :: rest)
      = .ok (.array [.simple t0]) rest
  simp only [List.length_cons]
  simp only [parseValue]
  rw [if_neg h43, if_neg h45, if_neg h58, if_neg h36, if_neg h42]
  simp [handleInlineM, readString_append _ _ hl, ht]

theorem c8_witness :
    deserialize [83, 69, 84, 32, 107, 32, 118, 13, 10]
      = .ok (.array [.simple [83, 69, 84]]) [] :=
  c8_inline_behavior 83 [69, 84, 32, 107, 32, 118, 13] [] [83, 69, 84]
    [[107], [118]] (by omega) (by omega) (by omega) (by omega) (by omega)
    (by decide) (by decide)

/-! ## C9: negative length prefixes -/

/-- C9: evaluating the codec at the failing inputs.  `*-1\x0d\x0a`
panics (`make([]Value, -1)` with a negative size before the element
loop), `$-2\x0d\x0a` panics (the slice `buf[:-2]` is out of range), and
only a length prefix that fails to decode as an integer, such as
`$a\x0d\x0a`, is returned as an error as the claim describes. -/
theorem c9_negative_length_panics :
    deserialize [42, 45, 49, 13, 10] = .panic
      ∧ deserialize [36, 45, 50, 13, 10] = .panic
      ∧ deserialize [36, 97, 13, 10] = .fail :=
  ⟨rfl, rfl, rfl⟩

end GoRedis
